import Mathlib

/-!
Shallow embedding of the binpack wire codec and marshal/unmarshal engine
(package binpack: binpack.go, marshal.go and the accompanying unmarshal file).

Bytes are modelled as `Nat` (the code only puts values `< 256` on the wire),
Go `int` is modelled as `Int` where its signedness can matter and as `Nat`
for decoded tags (which are built from bytes and are always nonnegative).
Where several historical variants of a function appear concatenated in the
source, the latest variant (the one the claims cite) is embedded.
-/

namespace Binpack

/-- Decidable equality of `Except` results, for evaluating the models on
concrete inputs. -/
instance {e a : Type} [DecidableEq e] [DecidableEq a] :
    DecidableEq (Except e a) := fun x y =>
  match x, y with
  | .ok u, .ok v =>
    if h : u = v then .isTrue (by rw [h]) else .isFalse (by simp [h])
  | .error u, .error v =>
    if h : u = v then .isTrue (by rw [h]) else .isFalse (by simp [h])
  | .ok _, .error _ => .isFalse (by simp)
  | .error _, .ok _ => .isFalse (by simp)

/-- Go `byte(x)` conversion of a Go `int`: the low 8 bits, i.e. `x` mod 256
in two's complement. -/
def goByte (x : Int) : Nat := (x % 256).toNat

/-- Go arithmetic right shift `x >> k` on a signed integer: floor division
by `2^k`. -/
def goShr (x : Int) (k : Nat) : Int := Int.fdiv x (2 ^ k)

/-- Errors produced by the encoder (`writeTag` / `writeValue`):
"tag too big" and "value too big". -/
inductive EncodeErr
  | tagTooBig
  | valueTooBig
deriving DecidableEq, Repr

/-- Read-side error conditions of a `bytes.Reader` source: `io.EOF`
(a read found no bytes at all) and `io.ErrUnexpectedEOF` (an `io.ReadFull`
obtained some but not all requested bytes). -/
inductive RErr
  | eof
  | unexpectedEOF
deriving DecidableEq, Repr

/-- `tagSize` (binpack.go): the number of bytes needed to encode `tag`, or -1. -/
def tagSize (tag : Int) : Int :=
  if tag < 128 then 1
  else if tag < (2 ^ 14 : Int) then 2    -- 1 << 14
  else if tag < (2 ^ 30 : Int) then 4    -- 1 << 30
  else -1

/-- `writeTag` (binpack.go): the bytes appended for `tag`, or the
"tag too big" error (in which case nothing is written). -/
def writeTag (tag : Int) : Except EncodeErr (List Nat) :=
  if tagSize tag = 1 then
    .ok [goByte tag]
  else if tagSize tag = 2 then
    -- 0x80 | byte(tag>>8), byte(tag & 0xff)  (byte(tag & 0xff) = byte(tag))
    .ok [0x80 ||| goByte (goShr tag 8), goByte tag]
  else if tagSize tag = 4 then
    -- 0xC0 | byte(tag>>24), byte(tag>>16), byte(tag>>8), byte(tag)
    .ok [0xC0 ||| goByte (goShr tag 24), goByte (goShr tag 16),
         goByte (goShr tag 8), goByte tag]
  else
    .error .tagTooBig

/-- `lengthSize` (binpack.go): the number of bytes used to encode the length
of `value`, or -1. -/
def lengthSize (value : List Nat) : Int :=
  let n := value.length
  if n == 1 && value.headD 0 < 128 then 0   -- n == 1 && value[0] < 128
  else if n < 2 ^ 6 then 1                  -- 1 << 6
  else if n < 2 ^ 13 then 2                 -- 1 << 13
  else if n < 2 ^ 29 then 4                 -- 1 << 29
  else -1

/-- `writeValue` (binpack.go): the bytes appended for `value` (length prefix
followed by the data), or the "value too big" error. -/
def writeValue (value : List Nat) : Except EncodeErr (List Nat) :=
  let n := value.length
  if lengthSize value = 0 then
    .ok [value.headD 0]                                   -- value[0]
  else if lengthSize value = 1 then
    .ok ((0x80 ||| n) :: value)                           -- 0x80 | byte(n)
  else if lengthSize value = 2 then
    -- 0xC0 | byte(n>>8), byte(n)
    .ok ((0xC0 ||| ((n >>> 8) &&& 0xff)) :: (n &&& 0xff) :: value)
  else if lengthSize value = 4 then
    -- 0xE0 | byte(n>>24), byte(n>>16), byte(n>>8), byte(n)
    .ok ((0xE0 ||| ((n >>> 24) &&& 0xff)) :: ((n >>> 16) &&& 0xff) ::
         ((n >>> 8) &&& 0xff) :: (n &&& 0xff) :: value)
  else
    .error .valueTooBig

/-- `Encoder.Encode` (binpack.go): appends the encoding of `tag` followed by
the encoding of `value`; the bytes appended on success. -/
def Encode (tag : Int) (value : List Nat) : Except EncodeErr (List Nat) := do
  let tb ← writeTag tag
  let vb ← writeValue value
  return tb ++ vb

/-- Total encoding of a tag already known to be in range; `[]` when
`writeTag` fails. -/
def encTag (t : Nat) : List Nat :=
  match writeTag (t : Int) with
  | .ok bs => bs
  | .error _ => []

/-- Total encoding of a value; `[]` when `writeValue` fails. -/
def encValue (v : List Nat) : List Nat :=
  match writeValue v with
  | .ok bs => bs
  | .error _ => []

/-- One full wire record: encoded tag followed by encoded value. -/
def encRecord (t : Nat) (v : List Nat) : List Nat := encTag t ++ encValue v

/-- `bufReader.ReadByte` on a `bytes.Reader`: the next byte, or `io.EOF`
when the source is exhausted. -/
def readByte : List Nat → Except RErr (Nat × List Nat)
  | [] => .error .eof
  | b :: rest => .ok (b, rest)

/-- `io.ReadFull` of `n` bytes from a `bytes.Reader`: `io.EOF` when no byte
could be read (and `n > 0`), `io.ErrUnexpectedEOF` after a partial read. -/
def readFull (n : Nat) (l : List Nat) : Except RErr (List Nat × List Nat) :=
  if n ≤ l.length then .ok (l.take n, l.drop n)
  else if l.length = 0 then .error .eof
  else .error .unexpectedEOF

/-- `readInt24` (binpack.go): three bytes, big-endian, via `io.ReadFull`. -/
def readInt24 : List Nat → Except RErr (Nat × List Nat)
  | d0 :: d1 :: d2 :: rest => .ok ((d0 <<< 16) ||| (d1 <<< 8) ||| d2, rest)
  | [] => .error .eof
  | _ => .error .unexpectedEOF

/-- `readTag` (binpack.go): reads a tag from the current position; every
`ReadByte` / `readInt24` error is returned as-is. -/
def readTag (l : List Nat) : Except RErr (Nat × List Nat) :=
  match readByte l with
  | .error e => .error e
  | .ok (b, l) =>
    -- switch v := b >> 6
    if b >>> 6 == 0 || b >>> 6 == 1 then
      .ok (b, l)
    else if b >>> 6 == 2 then
      match readByte l with
      | .error e => .error e
      | .ok (c, l) => .ok (((b &&& 0x3f) <<< 8) ||| c, l)
    else
      match readInt24 l with
      | .error e => .error e
      | .ok (z, l) => .ok (((b &&& 0x3f) <<< 24) ||| z, l)

/-- `readValue` (binpack.go): reads a value from the current position.
Note the long form takes its length from `readInt24` alone; the low five
bits of the index byte are not merged in. -/
def readValue (l : List Nat) : Except RErr (List Nat × List Nat) :=
  match readByte l with
  | .error e => .error e
  | .ok (b, l) =>
    if b >>> 5 < 4 then
      -- index with 1-byte value; no additional data bytes
      .ok ([b], l)
    else if b >>> 5 < 6 then
      -- index + data
      readFull (b &&& 0x3f) l
    else if b >>> 5 == 6 then
      -- index + 2 + data
      match readByte l with
      | .error e => .error e
      | .ok (c, l) => readFull (((b &&& 0x1f) <<< 8) ||| c) l
    else
      -- index + 3 + data
      match readInt24 l with
      | .error e => .error e
      | .ok (z, l) => readFull z l

/-- `Decoder.Decode` (binpack.go): the next tag-value record, or the error
from `readTag` / `readValue`. -/
def Decode (l : List Nat) : Except RErr (Nat × List Nat × List Nat) :=
  match readTag l with
  | .error e => .error e
  | .ok (tag, l) =>
    match readValue l with
    | .error e => .error e
    | .ok (value, l) => .ok (tag, value, l)

/-- Errors of the unmarshal engine (errors.New / fmt.Errorf messages in the
unmarshal file), plus the encode-side duplicate-tag error of
`checkStructType`. -/
inductive UErr
  | readErr (e : RErr)          -- a Decode/readValue error returned as-is
  | invalidArraySize (e : RErr) -- "invalid array size: %w"
  | invalidPackedArray          -- "invalid packed array"
  | invalidMapSize (e : RErr)   -- "invalid map size: %w"
  | missingMapValue             -- "missing map value"
  | invalidPackedMap            -- "invalid packed map"
  | invalidNumber               -- "invalid number encoding"
  | duplicateFieldTag           -- "duplicate field tag %d"
deriving DecidableEq, Repr

/-- Go `int8` wraparound: the value of the low 8 bits as a signed byte. -/
def int8Wrap (x : Int) : Int := (x + 128) % 256 - 128

/-- Go `uint64(v)` conversion of a signed value: its two's complement bit
pattern, i.e. `v` mod `2^64` (sign extension for narrow signed types). -/
def uint64OfInt (x : Int) : Nat := (x % (2 ^ 64 : Int)).toNat

/-- Go `int8(u)` conversion of a `uint64`: the low byte reinterpreted as a
signed byte. -/
def int8OfUint64 (u : Nat) : Int := int8Wrap ((u % 256 : Nat) : Int)

/-- `marshalNumber` (marshal.go, latest variant), `int8` arm:
`z = uint64(t<<1) ^ uint64(t>>7)` — the left shift wraps in `int8` BEFORE
the conversion sign-extends to 64 bits — followed by the inlined
`binary.BigEndian.PutUint64` / leading-zero-stripping loop. -/
def marshalNumberInt8 (t : Int) : List Nat :=
  let z := uint64OfInt (int8Wrap (t * 2)) ^^^ uint64OfInt (goShr t 7)
  let bytes := [(z >>> 56) &&& 0xff, (z >>> 48) &&& 0xff, (z >>> 40) &&& 0xff,
                (z >>> 32) &&& 0xff, (z >>> 24) &&& 0xff, (z >>> 16) &&& 0xff,
                (z >>> 8) &&& 0xff, z &&& 0xff]
  match bytes.dropWhile (· == 0) with
  | [] => [0]          -- all bytes zero: buf[:1]
  | l => l             -- buf[i:] from the first nonzero byte

/-- The big-endian accumulation loop shared by all arms of the latest
`unmarshalNumber`: `z = (z << 8) | uint64(b)` over the payload, in
wrapping `uint64` arithmetic. -/
def unpackLoop (data : List Nat) : Nat :=
  data.foldl (fun z b => ((z <<< 8) % 2 ^ 64) ||| b) 0

/-- `unmarshalNumber` (unmarshal file, latest variant), `int8` arm: the
decoded value stored through the pointer, paired with the error reported
AFTER the store (`len(data) == 0 || len(data) > 8`). -/
def unmarshalNumberInt8 (data : List Nat) : Int × Option UErr :=
  let z := unpackLoop data
  let mask := ((2 ^ 64 - 1) + (1 - (z &&& 1))) % 2 ^ 64  -- math.MaxUint64 + (1 - z&1)
  (int8OfUint64 (mask ^^^ (z >>> 1)),
   if data.length = 0 ∨ data.length > 8 then some .invalidNumber else none)

/-- `unmarshalNumber` (unmarshal file, latest variant), `uint64` arm, made
explicit about the pointee: given the payload and the previous value of the
pointed-to `uint64`, returns the new pointee value and the error. The store
`*t = uint64(z)` happens unconditionally, before the length check, so the
previous value is discarded. -/
def unmarshalNumberUint64 (data : List Nat) (_old : Nat) : Nat × Option UErr :=
  let z := unpackLoop data
  (z, if data.length = 0 ∨ data.length > 8 then some .invalidNumber else none)

/-- A successful `ReadByte` consumes one byte. -/
def readByte_len : ∀ {l : List Nat} {b r}, readByte l = .ok (b, r) →
    r.length < l.length := by
  intro l b r h
  cases l <;> simp_all [readByte]

/-- A successful `readFull` leaves a suffix of its input. -/
def readFull_len : ∀ {n : Nat} {l d r}, readFull n l = .ok (d, r) →
    r.length ≤ l.length := by
  intro n l d r h
  unfold readFull at h
  split at h
  · simp only [Except.ok.injEq, Prod.mk.injEq] at h
    rcases h with ⟨-, rfl⟩
    simp [List.length_drop]
  · split at h <;> simp_all

/-- A successful `readInt24` consumes three bytes. -/
def readInt24_len : ∀ {l : List Nat} {z r}, readInt24 l = .ok (z, r) →
    r.length < l.length := by
  intro l z r h
  rcases l with _ | ⟨a, _ | ⟨b, _ | ⟨c, t⟩⟩⟩ <;> simp_all [readInt24] <;> omega

/-- A successful `readTag` consumes at least one byte. -/
def readTag_len : ∀ {l : List Nat} {t r}, readTag l = .ok (t, r) →
    r.length < l.length := by
  intro l t r h
  unfold readTag at h
  cases hb : readByte l with
  | error e => rw [hb] at h; simp at h
  | ok p =>
    obtain ⟨b, l1⟩ := p
    rw [hb] at h
    have h1 : l1.length < l.length := readByte_len hb
    dsimp only at h
    split at h
    · simp only [Except.ok.injEq, Prod.mk.injEq] at h
      rcases h with ⟨-, rfl⟩
      exact h1
    · split at h
      · cases hc : readByte l1 with
        | error e => rw [hc] at h; simp at h
        | ok q =>
          obtain ⟨c, l2⟩ := q
          rw [hc] at h
          simp only [Except.ok.injEq, Prod.mk.injEq] at h
          rcases h with ⟨-, rfl⟩
          exact Nat.lt_trans (readByte_len hc) h1
      · cases hc : readInt24 l1 with
        | error e => rw [hc] at h; simp at h
        | ok q =>
          obtain ⟨z, l2⟩ := q
          rw [hc] at h
          simp only [Except.ok.injEq, Prod.mk.injEq] at h
          rcases h with ⟨-, rfl⟩
          exact Nat.lt_trans (readInt24_len hc) h1

/-- A successful `readValue` consumes at least one byte. -/
def readValue_len : ∀ {l : List Nat} {v r}, readValue l = .ok (v, r) →
    r.length < l.length := by
  intro l v r h
  unfold readValue at h
  cases hb : readByte l with
  | error e => rw [hb] at h; simp at h
  | ok p =>
    obtain ⟨b, l1⟩ := p
    rw [hb] at h
    have h1 : l1.length < l.length := readByte_len hb
    dsimp only at h
    split at h
    · simp only [Except.ok.injEq, Prod.mk.injEq] at h
      rcases h with ⟨-, rfl⟩
      exact h1
    · split at h
      · exact Nat.lt_of_le_of_lt (readFull_len h) h1
      · split at h
        · cases hc : readByte l1 with
          | error e => rw [hc] at h; simp at h
          | ok q =>
            obtain ⟨c, l2⟩ := q
            rw [hc] at h
            exact Nat.lt_trans
              (Nat.lt_of_le_of_lt (readFull_len h) (readByte_len hc)) h1
        · cases hc : readInt24 l1 with
          | error e => rw [hc] at h; simp at h
          | ok q =>
            obtain ⟨z, l2⟩ := q
            rw [hc] at h
            exact Nat.lt_trans
              (Nat.lt_of_le_of_lt (readFull_len h) (readInt24_len hc)) h1

/-- A successful `Decode` consumes at least one byte. -/
def Decode_len : ∀ {l : List Nat} {t v r}, Decode l = .ok (t, v, r) →
    r.length < l.length := by
  intro l t v r h
  unfold Decode at h
  cases ht : readTag l with
  | error e => rw [ht] at h; simp at h
  | ok p =>
    obtain ⟨tag, l1⟩ := p
    rw [ht] at h
    dsimp only at h
    cases hv : readValue l1 with
    | error e => rw [hv] at h; simp at h
    | ok q =>
      obtain ⟨val, l2⟩ := q
      rw [hv] at h
      simp only [Except.ok.injEq, Prod.mk.injEq] at h
      rcases h with ⟨-, -, rfl⟩
      exact Nat.lt_trans (readValue_len hv) (readTag_len ht)

/-- The loop of `unmarshalSlice` (unmarshal file, latest variant),
instantiated at element type `[]byte` (whose recursive `Unmarshal` is
`*t = copyOf(data)` and never fails): repeatedly read one embedded value,
append it, and decrement the declared count; at end of input the count
must have reached exactly zero. `size` is a Go `int` and may go negative. -/
def unmarshalSliceLoop (buf : List Nat) (acc : List (List Nat)) (size : Int) :
    Except UErr (List (List Nat)) :=
  match h : readValue buf with
  | .error .eof => if size ≠ 0 then .error .invalidPackedArray else .ok acc
  | .error e => .error (.readErr e)
  | .ok (next, buf') => unmarshalSliceLoop buf' (acc ++ [next]) (size - 1)
termination_by buf.length
decreasing_by exact readValue_len h

/-- `unmarshalSlice` (unmarshal file, latest variant) at element type
`[]byte`: read the leading count with `readTag`, then run the element loop
appending to the slice's current contents. -/
def unmarshalSliceBytes (data : List Nat) (cur : List (List Nat)) :
    Except UErr (List (List Nat)) :=
  match readTag data with
  | .error e => .error (.invalidArraySize e)
  | .ok (size, buf) => unmarshalSliceLoop buf cur (size : Int)

/-- Go map assignment `m[k] = v` on an association-list model: replace the
value of an existing key, otherwise add the entry. -/
def setMapIndex (m : List (List Nat × List Nat)) (k v : List Nat) :
    List (List Nat × List Nat) :=
  if m.any (fun e => e.1 == k) then
    m.map (fun e => if e.1 == k then (k, v) else e)
  else
    m ++ [(k, v)]

/-- The loop of `unmarshalMap` (unmarshal file, latest variant),
instantiated at key/value types whose recursive `Unmarshal` accepts any
payload (e.g. string keys and `[]byte` values): read a key value (end of
input ends the loop), then its mate (end of input here is the
"missing map value" error), store the pair, decrement the count. -/
def unmarshalMapLoop (buf : List Nat) (m : List (List Nat × List Nat))
    (size : Int) : Except UErr (List (List Nat × List Nat)) :=
  match h : readValue buf with
  | .error .eof => if size ≠ 0 then .error .invalidPackedMap else .ok m
  | .error e => .error (.readErr e)
  | .ok (nkey, buf1) =>
    match h2 : readValue buf1 with
    | .error .eof => .error .missingMapValue
    | .error e => .error (.readErr e)
    | .ok (nval, buf2) => unmarshalMapLoop buf2 (setMapIndex m nkey nval) (size - 1)
termination_by buf.length
decreasing_by exact Nat.lt_trans (readValue_len h2) (readValue_len h)

/-- `unmarshalMap` (unmarshal file, latest variant): read the leading entry
count with `readTag`, then run the key/value loop. -/
def unmarshalMapBytes (data : List Nat) (m : List (List Nat × List Nat)) :
    Except UErr (List (List Nat × List Nat)) :=
  match readTag data with
  | .error e => .error (.invalidMapSize e)
  | .ok (size, buf) => unmarshalMapLoop buf m (size : Int)

/-- One decode-side field descriptor of `checkStructType(withPointer=true)`:
its tag, the `slice` and `pack` flags, and the effect on the struct state of
the three recursive decode paths of `unmarshalStruct` (scalar
`Unmarshal(data, fi.target)`, packed `unmarshalSlice(data, slc)`, and the
inline-element append). -/
structure FieldD (σ : Type) where
  tag : Nat
  slice : Bool
  pack : Bool
  unmarshalInto : List Nat → σ → Except UErr σ
  unmarshalPacked : List Nat → σ → Except UErr σ
  appendInline : List Nat → σ → Except UErr σ

/-- The `find` closure of `unmarshalStruct`: first descriptor with the tag. -/
def findField {σ : Type} (info : List (FieldD σ)) (tag : Nat) :
    Option (FieldD σ) :=
  info.find? (fun fi => fi.tag == tag)

/-- The record loop of `unmarshalStruct` (unmarshal file, latest variant):
run a Decoder over the payload; unknown tags are skipped; a non-slice field
runs the recursive `Unmarshal` and — as in the source — answers success
(`return nil`) if that recursion fails, abandoning the rest of the payload;
packed and inline slice paths propagate their errors. -/
def unmarshalStructLoop {σ : Type} (info : List (FieldD σ)) (data : List Nat)
    (st : σ) : Except UErr σ :=
  match h : Decode data with
  | .error .eof => .ok st
  | .error e => .error (.readErr e)
  | .ok (tag, v, rest) =>
    match findField info tag with
    | none => unmarshalStructLoop info rest st    -- skip unknown fields
    | some fi =>
      if !fi.slice then
        match fi.unmarshalInto v st with
        | .error _ => .ok st                      -- `return nil`
        | .ok st' => unmarshalStructLoop info rest st'
      else if fi.pack then
        match fi.unmarshalPacked v st with
        | .error e => .error e
        | .ok st' => unmarshalStructLoop info rest st'
      else
        match fi.appendInline v st with
        | .error e => .error e
        | .ok st' => unmarshalStructLoop info rest st'
termination_by data.length
decreasing_by all_goals exact Decode_len h

/-- One encode-side field of a struct, as seen by `checkStructType`
(withPointer=false) and `marshalStruct` (marshal.go, latest variant): the
tag, the `slice`/`pack` flags, whether the current value is the zero value
for its type, the marshaled payload of the field value, and the marshaled
payloads of its elements when it is a slice. -/
structure MField where
  tag : Int
  slice : Bool
  pack : Bool
  isZero : Bool
  payload : List Nat
  elems : List (List Nat)

/-- Insertion into a tag-sorted descriptor list (for `sort.Slice` on tags). -/
def insertByTag (f : MField) : List MField → List MField
  | [] => [f]
  | g :: rest => if f.tag ≤ g.tag then f :: g :: rest else g :: insertByTag f rest

/-- Ascending-tag sort of descriptors (`sort.Slice` in `checkStructType`). -/
def sortTags : List MField → List MField
  | [] => []
  | f :: rest => insertByTag f (sortTags rest)

/-- The adjacent duplicate-tag check of `checkStructType` after sorting. -/
def hasDupTag : List MField → Bool
  | a :: b :: rest => a.tag == b.tag || hasDupTag (b :: rest)
  | _ => false

/-- The `put` closure of `marshalStruct`: `writeTag` then `writeValue` into
the output buffer, errors discarded (a failing write appends nothing). -/
def putRecord (tag : Int) (data : List Nat) : List Nat :=
  (match writeTag tag with
   | .ok bs => bs
   | .error _ => []) ++
  (match writeValue data with
   | .ok bs => bs
   | .error _ => [])

/-- `marshalStruct` together with the encode side of `checkStructType`
(marshal.go, latest variant): annotated fields whose value is the zero
value are dropped, the rest are sorted by tag and checked for duplicates;
a slice field that is not packed emits one record per element, every other
field emits a single record. -/
def marshalStructModel (fields : List MField) : Except UErr (List Nat) :=
  let info := sortTags (fields.filter (fun f => !f.isZero))
  if hasDupTag info then .error .duplicateFieldTag
  else .ok (info.flatMap (fun fi =>
    if fi.slice && !fi.pack then
      fi.elems.flatMap (fun d => putRecord fi.tag d)
    else
      putRecord fi.tag fi.payload))

/-- A concrete struct target with a single pointer field,
`struct { P *uint64 "binpack:tag=1" }`; `none` models a nil pointer. -/
structure Sptr where
  P : Option Nat
deriving DecidableEq, Repr

/-- The zero value of `Sptr`: a nil pointer field. -/
def zeroSptr : Sptr := ⟨none⟩

/-- The record loop of `unmarshalStruct` specialised to `Sptr`: the only
descriptor has tag 1 and is not a slice, its target the freshly allocated
pointee (tracked as the `p` argument). A number-decode failure is swallowed
(`return nil`) with the pointee already overwritten. -/
def unmarshalSptrLoop (data : List Nat) (p : Nat) : Except UErr Nat :=
  match h : Decode data with
  | .error .eof => .ok p
  | .error e => .error (.readErr e)
  | .ok (tag, v, rest) =>
    if tag == 1 then
      match unmarshalNumberUint64 v p with
      | (p', some _) => .ok p'             -- `return nil`
      | (p', none) => unmarshalSptrLoop rest p'
    else
      unmarshalSptrLoop rest p             -- skip unknown fields
termination_by data.length
decreasing_by all_goals exact Decode_len h

/-- `unmarshalStruct` specialised to `Sptr`: `checkStructType` with
`withPointer=true` first executes `field.Set(reflect.New(elem))` on the
pointer field — the field becomes a fresh non-nil pointer to zero even
before any record is decoded — and the loop then fills the pointee. -/
def unmarshalStructSptr (data : List Nat) (_s : Sptr) : Except UErr Sptr :=
  match unmarshalSptrLoop data 0 with
  | .error e => .error e
  | .ok p => .ok ⟨some p⟩

/-- A decode-side descriptor over state `Nat` whose tag is 1 and whose
scalar decode always fails (as `Unmarshal` does on, e.g., an empty payload
for a numeric field). -/
def failingField : FieldD Nat where
  tag := 1
  slice := false
  pack := false
  unmarshalInto := fun _ _ => .error .invalidNumber
  unmarshalPacked := fun _ s => .ok s
  appendInline := fun _ s => .ok s

/-- A decode-side descriptor over state `List Nat` modelling a struct with
one string field (tag 1, not a slice): its recursive `Unmarshal` is the
`*string` arm `*t = string(data)`, which accepts any payload; the state is
the field's current bytes. -/
def strField : FieldD (List Nat) where
  tag := 1
  slice := false
  pack := false
  unmarshalInto := fun data _ => .ok data
  unmarshalPacked := fun _ s => .ok s
  appendInline := fun _ s => .ok s

/-- A record value of exactly `2^24` bytes: an embedded wire record with
tag 1 and value [98, 121], padded with zero bytes, each pair of which
parses as a record with tag 0 and value 0x00. Its length makes the
value-length encoder use the long form with a nonzero bit in the index
byte's low five bits — the bits the decoder's long form ignores. -/
def bigVal : List Nat := encRecord 1 [98, 121] ++ List.replicate (2 ^ 24 - 4) 0

/-- The concatenated wire encoding of a list of records. -/
def encRecords (rs : List (Nat × List Nat)) : List Nat :=
  (rs.map (fun r => encRecord r.1 r.2)).flatten

/-- Whether a record is encodable so that `Decode` reads it back exactly:
tag below `2^30` and value shorter than `2^24` bytes. -/
def RecordOk (r : Nat × List Nat) : Prop :=
  r.1 < 2 ^ 30 ∧ r.2.length < 2 ^ 24

/-! Helper lemmas: casts, disjoint bitwise ors, and the byte-level shapes
of the encoders. -/

theorem lor_disjoint {b i : Nat} (h : b < 2 ^ i) (a : Nat) :
    (2 ^ i * a) ||| b = 2 ^ i * a + b :=
  (Nat.mul_add_lt_is_or h a).symm

theorem goByte_nat (t : Nat) : goByte (t : Int) = t % 256 := by
  unfold goByte
  omega

theorem goShr_nat (t k : Nat) : goShr (t : Int) k = ((t / 2 ^ k : Nat) : Int) := by
  unfold goShr
  rw [Int.fdiv_eq_ediv _ (by positivity)]
  push_cast
  rfl

theorem tagSize_one {t : Nat} (h : t < 128) : tagSize (t : Int) = 1 := by
  unfold tagSize
  rw [if_pos (by exact_mod_cast h)]

theorem tagSize_two {t : Nat} (h1 : 128 ≤ t) (h2 : t < 2 ^ 14) :
    tagSize (t : Int) = 2 := by
  unfold tagSize
  rw [if_neg (by push_cast; omega), if_pos (by exact_mod_cast h2)]

theorem tagSize_four {t : Nat} (h1 : 2 ^ 14 ≤ t) (h2 : t < 2 ^ 30) :
    tagSize (t : Int) = 4 := by
  unfold tagSize
  rw [if_neg (by push_cast; omega), if_neg (by push_cast; omega),
      if_pos (by exact_mod_cast h2)]

theorem writeTag_one {t : Nat} (h : t < 128) : writeTag (t : Int) = .ok [t] := by
  unfold writeTag
  rw [tagSize_one h, if_pos rfl, goByte_nat]
  have hm : t % 256 = t := by omega
  rw [hm]

theorem writeTag_two {t : Nat} (h1 : 128 ≤ t) (h2 : t < 2 ^ 14) :
    writeTag (t : Int) = .ok [128 + t / 2 ^ 8, t % 256] := by
  unfold writeTag
  rw [tagSize_two h1 h2, if_neg (by decide), if_pos rfl, goShr_nat, goByte_nat,
      goByte_nat]
  have hm : t / 2 ^ 8 % 256 = t / 2 ^ 8 := by omega
  rw [hm]
  have h128 : (128 : Nat) = 2 ^ 6 * 2 := by norm_num
  rw [h128, lor_disjoint (by omega)]

theorem writeTag_four {t : Nat} (h1 : 2 ^ 14 ≤ t) (h2 : t < 2 ^ 30) :
    writeTag (t : Int) =
      .ok [192 + t / 2 ^ 24, t / 2 ^ 16 % 256, t / 2 ^ 8 % 256, t % 256] := by
  unfold writeTag
  rw [tagSize_four h1 h2, if_neg (by decide), if_neg (by decide), if_pos rfl,
      goShr_nat, goShr_nat, goShr_nat, goByte_nat, goByte_nat, goByte_nat,
      goByte_nat]
  have hm : t / 2 ^ 24 % 256 = t / 2 ^ 24 := by omega
  rw [hm]
  have h192 : (192 : Nat) = 2 ^ 6 * 3 := by norm_num
  rw [h192, lor_disjoint (by omega)]

theorem encTag_one {t : Nat} (h : t < 128) : encTag t = [t] := by
  unfold encTag
  rw [writeTag_one h]

theorem encTag_two {t : Nat} (h1 : 128 ≤ t) (h2 : t < 2 ^ 14) :
    encTag t = [128 + t / 2 ^ 8, t % 256] := by
  unfold encTag
  rw [writeTag_two h1 h2]

theorem encTag_four {t : Nat} (h1 : 2 ^ 14 ≤ t) (h2 : t < 2 ^ 30) :
    encTag t = [192 + t / 2 ^ 24, t / 2 ^ 16 % 256, t / 2 ^ 8 % 256, t % 256] := by
  unfold encTag
  rw [writeTag_four h1 h2]

/-- `readTag` inverts `writeTag` for every in-range tag, leaving the rest
of the stream untouched. -/
theorem readTag_encTag {t : Nat} (ht : t < 2 ^ 30) (rest : List Nat) :
    readTag (encTag t ++ rest) = .ok (t, rest) := by
  by_cases h1 : t < 128
  · rw [encTag_one h1]
    show readTag (t :: rest) = .ok (t, rest)
    unfold readTag readByte
    dsimp only
    have hcond : (t >>> 6 == 0 || t >>> 6 == 1) = true := by
      simp only [Nat.shiftRight_eq_div_pow, Bool.or_eq_true, beq_iff_eq]
      omega
    rw [if_pos hcond]
  · by_cases h2 : t < 2 ^ 14
    · rw [encTag_two (by omega) h2]
      show readTag ((128 + t / 2 ^ 8) :: t % 256 :: rest) = .ok (t, rest)
      unfold readTag readByte
      dsimp only
      have hs6 : (128 + t / 2 ^ 8) >>> 6 = 2 := by
        rw [Nat.shiftRight_eq_div_pow]
        omega
      rw [hs6, if_neg (by decide), if_pos (by decide)]
      have hand : (128 + t / 2 ^ 8) &&& 63 = t / 2 ^ 8 := by
        have h63 : (63 : Nat) = 2 ^ 6 - 1 := by norm_num
        rw [h63, Nat.and_pow_two_sub_one_eq_mod]
        omega
      rw [hand, Nat.shiftLeft_eq]
      have hmul : t / 2 ^ 8 * 2 ^ 8 = 2 ^ 8 * (t / 2 ^ 8) := by ring
      rw [hmul, lor_disjoint (by omega)]
      have hfin : 2 ^ 8 * (t / 2 ^ 8) + t % 256 = t := by omega
      rw [hfin]
    · rw [encTag_four (by omega) ht]
      show readTag ((192 + t / 2 ^ 24) :: t / 2 ^ 16 % 256 :: t / 2 ^ 8 % 256 ::
        t % 256 :: rest) = .ok (t, rest)
      unfold readTag readByte readInt24
      dsimp only
      have hs6 : (192 + t / 2 ^ 24) >>> 6 = 3 := by
        rw [Nat.shiftRight_eq_div_pow]
        omega
      rw [hs6, if_neg (by decide), if_neg (by decide)]
      have hand : (192 + t / 2 ^ 24) &&& 63 = t / 2 ^ 24 := by
        have h63 : (63 : Nat) = 2 ^ 6 - 1 := by norm_num
        rw [h63, Nat.and_pow_two_sub_one_eq_mod]
        omega
      rw [hand]
      simp only [Nat.shiftLeft_eq]
      have e1 : t / 2 ^ 16 % 256 * 2 ^ 16 = 2 ^ 16 * (t / 2 ^ 16 % 256) := by ring
      have e2 : t / 2 ^ 8 % 256 * 2 ^ 8 = 2 ^ 8 * (t / 2 ^ 8 % 256) := by ring
      rw [e1, e2, lor_disjoint (by omega)]
      have e3 : 2 ^ 16 * (t / 2 ^ 16 % 256) + 2 ^ 8 * (t / 2 ^ 8 % 256) =
          2 ^ 8 * (2 ^ 8 * (t / 2 ^ 16 % 256) + t / 2 ^ 8 % 256) := by ring
      rw [e3, lor_disjoint (by omega)]
      have e4 : t / 2 ^ 24 * 2 ^ 24 = 2 ^ 24 * (t / 2 ^ 24) := by ring
      rw [e4, lor_disjoint (by omega)]
      have hfin : 2 ^ 24 * (t / 2 ^ 24) +
          (2 ^ 8 * (2 ^ 8 * (t / 2 ^ 16 % 256) + t / 2 ^ 8 % 256) + t % 256) = t := by
        omega
      rw [hfin]

theorem readFull_exact (v rest : List Nat) :
    readFull v.length (v ++ rest) = .ok (v, rest) := by
  unfold readFull
  rw [if_pos (by simp)]
  rw [List.take_left, List.drop_left]

theorem lengthSize_zero {b : Nat} (h : b < 128) : lengthSize [b] = 0 := by
  simp [lengthSize, h]

theorem lengthSize_one {v : List Nat} (h0 : v.length ≠ 1 ∨ 128 ≤ v.headD 0)
    (h1 : v.length < 2 ^ 6) : lengthSize v = 1 := by
  unfold lengthSize
  have hc : (v.length == 1 && decide (v.headD 0 < 128)) = false := by
    rcases h0 with h | h
    · have hl : (v.length == 1) = false := by simp [h]
      simp only [hl, Bool.false_and]
    · have hd : (decide (v.headD 0 < 128)) = false := decide_eq_false (by omega)
      simp only [hd, Bool.and_false]
  simp only [hc, Bool.false_eq_true, if_false, if_pos h1]

theorem lengthSize_two {v : List Nat} (h1 : 2 ^ 6 ≤ v.length)
    (h2 : v.length < 2 ^ 13) : lengthSize v = 2 := by
  unfold lengthSize
  have hc : (v.length == 1 && decide (v.headD 0 < 128)) = false := by
    have : v.length ≠ 1 := by omega
    simp [this]
  simp only [hc, Bool.false_eq_true, if_false, if_neg (by omega : ¬ v.length < 2 ^ 6),
    if_pos h2]

theorem lengthSize_four {v : List Nat} (h1 : 2 ^ 13 ≤ v.length)
    (h2 : v.length < 2 ^ 29) : lengthSize v = 4 := by
  unfold lengthSize
  have hc : (v.length == 1 && decide (v.headD 0 < 128)) = false := by
    have : v.length ≠ 1 := by omega
    simp [this]
  simp only [hc, Bool.false_eq_true, if_false, if_neg (by omega : ¬ v.length < 2 ^ 6),
    if_neg (by omega : ¬ v.length < 2 ^ 13), if_pos h2]

theorem writeValue_zero {b : Nat} (h : b < 128) : writeValue [b] = .ok [b] := by
  unfold writeValue
  rw [lengthSize_zero h, if_pos rfl]
  rfl

theorem writeValue_one {v : List Nat} (h0 : v.length ≠ 1 ∨ 128 ≤ v.headD 0)
    (h1 : v.length < 2 ^ 6) : writeValue v = .ok ((128 + v.length) :: v) := by
  unfold writeValue
  rw [lengthSize_one h0 h1, if_neg (by decide), if_pos rfl]
  have h128 : (128 : Nat) = 2 ^ 6 * 2 := by norm_num
  rw [h128, lor_disjoint (by omega)]

theorem writeValue_two {v : List Nat} (h1 : 2 ^ 6 ≤ v.length)
    (h2 : v.length < 2 ^ 13) :
    writeValue v = .ok ((192 + v.length / 2 ^ 8) :: v.length % 2 ^ 8 :: v) := by
  unfold writeValue
  rw [lengthSize_two h1 h2, if_neg (by decide), if_neg (by decide), if_pos rfl,
      Nat.shiftRight_eq_div_pow]
  have hff : (255 : Nat) = 2 ^ 8 - 1 := by norm_num
  rw [hff, Nat.and_pow_two_sub_one_eq_mod, Nat.and_pow_two_sub_one_eq_mod]
  have hm : v.length / 2 ^ 8 % 2 ^ 8 = v.length / 2 ^ 8 := by omega
  rw [hm]
  have h192 : (192 : Nat) = 2 ^ 5 * 6 := by norm_num
  rw [h192, lor_disjoint (by omega)]

theorem writeValue_four {v : List Nat} (h1 : 2 ^ 13 ≤ v.length)
    (h2 : v.length < 2 ^ 24) :
    writeValue v = .ok (224 :: v.length / 2 ^ 16 % 2 ^ 8 ::
      v.length / 2 ^ 8 % 2 ^ 8 :: v.length % 2 ^ 8 :: v) := by
  unfold writeValue
  rw [lengthSize_four h1 (by omega), if_neg (by decide), if_neg (by decide),
      if_neg (by decide), if_pos rfl]
  simp only [Nat.shiftRight_eq_div_pow]
  have hff : (255 : Nat) = 2 ^ 8 - 1 := by norm_num
  rw [hff, Nat.and_pow_two_sub_one_eq_mod, Nat.and_pow_two_sub_one_eq_mod,
      Nat.and_pow_two_sub_one_eq_mod, Nat.and_pow_two_sub_one_eq_mod]
  have hz : v.length / 2 ^ 24 % 2 ^ 8 = 0 := by omega
  rw [hz, Nat.or_zero]

theorem encValue_zero {b : Nat} (h : b < 128) : encValue [b] = [b] := by
  unfold encValue
  rw [writeValue_zero h]

theorem encValue_one {v : List Nat} (h0 : v.length ≠ 1 ∨ 128 ≤ v.headD 0)
    (h1 : v.length < 2 ^ 6) : encValue v = (128 + v.length) :: v := by
  unfold encValue
  rw [writeValue_one h0 h1]

theorem encValue_two {v : List Nat} (h1 : 2 ^ 6 ≤ v.length)
    (h2 : v.length < 2 ^ 13) :
    encValue v = (192 + v.length / 2 ^ 8) :: v.length % 2 ^ 8 :: v := by
  unfold encValue
  rw [writeValue_two h1 h2]

theorem encValue_four {v : List Nat} (h1 : 2 ^ 13 ≤ v.length)
    (h2 : v.length < 2 ^ 24) :
    encValue v = 224 :: v.length / 2 ^ 16 % 2 ^ 8 ::
      v.length / 2 ^ 8 % 2 ^ 8 :: v.length % 2 ^ 8 :: v := by
  unfold encValue
  rw [writeValue_four h1 h2]

/-- `readValue` inverts `writeValue` for every value shorter than `2^24`
bytes (beyond that the reader's long form drops the index byte's high
length bits), leaving the rest of the stream untouched. -/
theorem readValue_encValue {v : List Nat} (hlen : v.length < 2 ^ 24)
    (rest : List Nat) : readValue (encValue v ++ rest) = .ok (v, rest) := by
  by_cases h0 : v.length = 1 ∧ v.headD 0 < 128
  · obtain ⟨hl, hh⟩ := h0
    rcases v with _ | ⟨b, tl⟩
    · simp at hl
    · have htl : tl = [] := by
        simp only [List.length_cons] at hl
        exact List.eq_nil_of_length_eq_zero (by omega)
      subst htl
      have hh' : b < 128 := by simpa using hh
      rw [encValue_zero hh']
      show readValue (b :: rest) = .ok ([b], rest)
      unfold readValue readByte
      dsimp only
      have h5 : b >>> 5 < 4 := by
        rw [Nat.shiftRight_eq_div_pow]
        omega
      rw [if_pos h5]
  · by_cases hn1 : v.length < 2 ^ 6
    · have h0' : v.length ≠ 1 ∨ 128 ≤ v.headD 0 := by
        rcases Nat.lt_or_ge (v.headD 0) 128 with h | h
        · exact Or.inl (fun hl => h0 ⟨hl, h⟩)
        · exact Or.inr h
      rw [encValue_one h0' hn1]
      show readValue ((128 + v.length) :: (v ++ rest)) = .ok (v, rest)
      unfold readValue readByte
      dsimp only
      have h5a : ¬ ((128 + v.length) >>> 5 < 4) := by
        rw [Nat.shiftRight_eq_div_pow]
        omega
      have h5b : (128 + v.length) >>> 5 < 6 := by
        rw [Nat.shiftRight_eq_div_pow]
        omega
      rw [if_neg h5a, if_pos h5b]
      have hand : (128 + v.length) &&& 63 = v.length := by
        have h63 : (63 : Nat) = 2 ^ 6 - 1 := by norm_num
        rw [h63, Nat.and_pow_two_sub_one_eq_mod]
        omega
      rw [hand, readFull_exact]
    · by_cases hn2 : v.length < 2 ^ 13
      · rw [encValue_two (by omega) hn2]
        show readValue ((192 + v.length / 2 ^ 8) :: v.length % 2 ^ 8 ::
          (v ++ rest)) = .ok (v, rest)
        unfold readValue readByte
        dsimp only
        have hs5 : (192 + v.length / 2 ^ 8) >>> 5 = 6 := by
          rw [Nat.shiftRight_eq_div_pow]
          omega
        rw [hs5, if_neg (by decide), if_neg (by decide), if_pos (by decide)]
        have hand : (192 + v.length / 2 ^ 8) &&& 31 = v.length / 2 ^ 8 := by
          have h31 : (31 : Nat) = 2 ^ 5 - 1 := by norm_num
          rw [h31, Nat.and_pow_two_sub_one_eq_mod]
          omega
        rw [hand, Nat.shiftLeft_eq]
        have hmul : v.length / 2 ^ 8 * 2 ^ 8 = 2 ^ 8 * (v.length / 2 ^ 8) := by
          ring
        rw [hmul, lor_disjoint (by omega)]
        have hfin : 2 ^ 8 * (v.length / 2 ^ 8) + v.length % 2 ^ 8 = v.length := by
          omega
        rw [hfin, readFull_exact]
      · rw [encValue_four (by omega) hlen]
        show readValue (224 :: v.length / 2 ^ 16 % 2 ^ 8 ::
          v.length / 2 ^ 8 % 2 ^ 8 :: v.length % 2 ^ 8 :: (v ++ rest)) =
          .ok (v, rest)
        unfold readValue readByte readInt24
        dsimp only
        rw [if_neg (by decide), if_neg (by decide), if_neg (by decide)]
        simp only [Nat.shiftLeft_eq]
        have e1 : v.length / 2 ^ 16 % 2 ^ 8 * 2 ^ 16 =
            2 ^ 16 * (v.length / 2 ^ 16 % 2 ^ 8) := by ring
        have e2 : v.length / 2 ^ 8 % 2 ^ 8 * 2 ^ 8 =
            2 ^ 8 * (v.length / 2 ^ 8 % 2 ^ 8) := by ring
        rw [e1, e2, lor_disjoint (by omega)]
        have e3 : 2 ^ 16 * (v.length / 2 ^ 16 % 2 ^ 8) +
            2 ^ 8 * (v.length / 2 ^ 8 % 2 ^ 8) =
            2 ^ 8 * (2 ^ 8 * (v.length / 2 ^ 16 % 2 ^ 8) +
              v.length / 2 ^ 8 % 2 ^ 8) := by ring
        rw [e3, lor_disjoint (by omega)]
        have hfin : 2 ^ 8 * (2 ^ 8 * (v.length / 2 ^ 16 % 2 ^ 8) +
            v.length / 2 ^ 8 % 2 ^ 8) + v.length % 2 ^ 8 = v.length := by
          omega
        rw [hfin, readFull_exact]

/-- `Decode` reads back exactly the record `(t, v)` from its wire encoding,
for every in-range tag and every value shorter than `2^24` bytes. -/
theorem Decode_encRecord {t : Nat} {v : List Nat} (ht : t < 2 ^ 30)
    (hv : v.length < 2 ^ 24) (rest : List Nat) :
    Decode (encRecord t v ++ rest) = .ok (t, v, rest) := by
  unfold Decode encRecord
  rw [List.append_assoc, readTag_encTag ht]
  dsimp only
  rw [readValue_encValue hv]

/-! Unfolding lemmas for the unmarshal loops. -/

theorem sliceLoop_eof {buf : List Nat} (hb : readValue buf = .error .eof)
    (acc : List (List Nat)) (size : Int) : unmarshalSliceLoop buf acc size =
      if size ≠ 0 then .error .invalidPackedArray else .ok acc := by
  rw [unmarshalSliceLoop]
  split
  · rfl
  all_goals simp_all

theorem sliceLoop_step {buf next buf' : List Nat}
    (hb : readValue buf = .ok (next, buf')) (acc : List (List Nat)) (size : Int) :
    unmarshalSliceLoop buf acc size =
      unmarshalSliceLoop buf' (acc ++ [next]) (size - 1) := by
  rw [unmarshalSliceLoop]
  split
  all_goals simp_all

theorem mapLoop_eof {buf : List Nat} (hb : readValue buf = .error .eof)
    (m : List (List Nat × List Nat)) (size : Int) : unmarshalMapLoop buf m size =
      if size ≠ 0 then .error .invalidPackedMap else .ok m := by
  rw [unmarshalMapLoop]
  split
  · rfl
  all_goals simp_all

theorem mapLoop_missing {buf k buf1 : List Nat}
    (hb : readValue buf = .ok (k, buf1)) (h2 : readValue buf1 = .error .eof)
    (m : List (List Nat × List Nat)) (size : Int) :
    unmarshalMapLoop buf m size = .error .missingMapValue := by
  rw [unmarshalMapLoop]
  split
  · simp_all
  · simp_all
  · rename_i nkey buf1' hok
    rw [hb] at hok
    injection hok with hok1
    injection hok1 with hk hbuf
    subst hk
    subst hbuf
    split
    · rfl
    all_goals simp_all

theorem mapLoop_step {buf k buf1 v buf2 : List Nat}
    (hb : readValue buf = .ok (k, buf1)) (h2 : readValue buf1 = .ok (v, buf2))
    (m : List (List Nat × List Nat)) (size : Int) :
    unmarshalMapLoop buf m size =
      unmarshalMapLoop buf2 (setMapIndex m k v) (size - 1) := by
  rw [unmarshalMapLoop]
  split
  · simp_all
  · simp_all
  · rename_i nkey buf1' hok
    rw [hb] at hok
    injection hok with hok1
    injection hok1 with hk hbuf
    subst hk
    subst hbuf
    split
    all_goals simp_all

/-- Running the slice-element loop over the concatenated encodings of `es`
appends exactly `es` and then applies the final count check. -/
theorem sliceLoop_encVals (es : List (List Nat))
    (he : ∀ e ∈ es, e.length < 2 ^ 24) :
    ∀ (acc : List (List Nat)) (size : Int),
      unmarshalSliceLoop ((es.map encValue).flatten) acc size =
        if size - (es.length : Int) ≠ 0 then .error .invalidPackedArray
        else .ok (acc ++ es) := by
  induction es with
  | nil =>
    intro acc size
    have h0 : ((List.map encValue []).flatten : List Nat) = [] := by simp
    rw [h0, sliceLoop_eof (by rfl)]
    simp
  | cons e es ih =>
    intro acc size
    have hfl : (((e :: es).map encValue).flatten : List Nat) =
        encValue e ++ (es.map encValue).flatten := by simp
    rw [hfl, sliceLoop_step (readValue_encValue (he e (by simp)) _),
        ih (fun x hx => he x (by simp [hx]))]
    have hc : size - 1 - (es.length : Int) = size - ((e :: es).length : Int) := by
      simp only [List.length_cons]
      push_cast
      ring
    rw [hc]
    simp [List.append_assoc]

/-- Running the map-entry loop over encoded pairs followed by one trailing
encoded key always ends in the "missing map value" error. -/
theorem mapLoop_encPairs (ps : List (List Nat × List Nat))
    (hp : ∀ p ∈ ps, p.1.length < 2 ^ 24 ∧ p.2.length < 2 ^ 24)
    {k : List Nat} (hk : k.length < 2 ^ 24) :
    ∀ (m : List (List Nat × List Nat)) (size : Int),
      unmarshalMapLoop
        ((ps.map (fun p => encValue p.1 ++ encValue p.2)).flatten ++ encValue k)
        m size = .error .missingMapValue := by
  induction ps with
  | nil =>
    intro m size
    have h0 : ((List.map (fun p : List Nat × List Nat =>
        encValue p.1 ++ encValue p.2) []).flatten : List Nat) ++ encValue k =
        encValue k ++ [] := by simp
    rw [h0]
    exact mapLoop_missing (readValue_encValue hk []) (by rfl) m size
  | cons p ps ih =>
    intro m size
    have hfl : (((p :: ps).map (fun p => encValue p.1 ++ encValue p.2)).flatten :
        List Nat) ++ encValue k =
        encValue p.1 ++ (encValue p.2 ++
          ((ps.map (fun p => encValue p.1 ++ encValue p.2)).flatten ++ encValue k)) := by
      simp [List.append_assoc]
    rw [hfl, mapLoop_step (readValue_encValue (hp p (by simp)).1 _)
          (readValue_encValue (hp p (by simp)).2 _),
        ih (fun x hx => hp x (by simp [hx]))]

theorem structLoop_eof {σ : Type} {info : List (FieldD σ)} {data : List Nat}
    (hd : Decode data = .error .eof) (st : σ) :
    unmarshalStructLoop info data st = .ok st := by
  rw [unmarshalStructLoop]
  split
  · rfl
  all_goals simp_all

/-- One step of the `unmarshalStruct` record loop, expressed through the
decoded record. -/
theorem structLoop_cons {σ : Type} (info : List (FieldD σ))
    {data : List Nat} {tag : Nat} {v rest : List Nat}
    (hd : Decode data = .ok (tag, v, rest)) (st : σ) :
    unmarshalStructLoop info data st =
      match findField info tag with
      | none => unmarshalStructLoop info rest st
      | some fi =>
        if !fi.slice then
          match fi.unmarshalInto v st with
          | .error _ => .ok st
          | .ok st' => unmarshalStructLoop info rest st'
        else if fi.pack then
          match fi.unmarshalPacked v st with
          | .error e => .error e
          | .ok st' => unmarshalStructLoop info rest st'
        else
          match fi.appendInline v st with
          | .error e => .error e
          | .ok st' => unmarshalStructLoop info rest st' := by
  rw [unmarshalStructLoop]
  split
  all_goals simp_all

/-- If two suffixes are decoded to the same result from every state, so are
their extensions by a common prefix of well-formed records. -/
theorem structLoop_ext {σ : Type} (info : List (FieldD σ))
    (rs : List (Nat × List Nat)) (hrs : ∀ r ∈ rs, RecordOk r)
    {X Y : List Nat} (hXY : ∀ st : σ, unmarshalStructLoop info X st =
      unmarshalStructLoop info Y st) :
    ∀ st : σ, unmarshalStructLoop info (encRecords rs ++ X) st =
      unmarshalStructLoop info (encRecords rs ++ Y) st := by
  induction rs with
  | nil =>
    intro st
    have h0 : encRecords [] = ([] : List Nat) := by simp [encRecords]
    rw [h0]
    exact hXY st
  | cons r rs ih =>
    intro st
    obtain ⟨hr1, hr2⟩ := hrs r (by simp)
    have hfl : ∀ Z : List Nat, encRecords (r :: rs) ++ Z =
        encRecord r.1 r.2 ++ (encRecords rs ++ Z) := by
      intro Z
      simp [encRecords, List.append_assoc]
    have ih' := ih (fun x hx => hrs x (by simp [hx]))
    rw [hfl X, hfl Y,
        structLoop_cons info (Decode_encRecord hr1 hr2 _) st,
        structLoop_cons info (Decode_encRecord hr1 hr2 _) st]
    cases hf : findField info r.1 with
    | none => exact ih' st
    | some fi =>
      dsimp only
      by_cases hsl : fi.slice
      · simp only [hsl]
        by_cases hpk : fi.pack
        · simp only [hpk, if_true]
          cases fi.unmarshalPacked r.2 st with
          | error e => rfl
          | ok st' => exact ih' st'
        · simp only [hpk, if_false]
          cases fi.appendInline r.2 st with
          | error e => rfl
          | ok st' => exact ih' st'
      · simp only [hsl]
        cases fi.unmarshalInto r.2 st with
        | error e => rfl
        | ok st' => exact ih' st'

theorem sptrLoop_eof {data : List Nat} (hd : Decode data = .error .eof)
    (p : Nat) : unmarshalSptrLoop data p = .ok p := by
  rw [unmarshalSptrLoop]
  split
  · rfl
  all_goals simp_all

theorem lengthSize_cases {v : List Nat} (hv : v.length < 2 ^ 29) :
    lengthSize v = 0 ∨ lengthSize v = 1 ∨ lengthSize v = 2 ∨ lengthSize v = 4 := by
  unfold lengthSize
  dsimp only
  by_cases h1 : (v.length == 1 && decide (v.headD 0 < 128)) = true
  · rw [if_pos h1]
    exact Or.inl rfl
  · rw [if_neg h1]
    by_cases h2 : v.length < 2 ^ 6
    · rw [if_pos h2]
      exact Or.inr (Or.inl rfl)
    · rw [if_neg h2]
      by_cases h3 : v.length < 2 ^ 13
      · rw [if_pos h3]
        exact Or.inr (Or.inr (Or.inl rfl))
      · rw [if_neg h3, if_pos (by omega)]
        exact Or.inr (Or.inr (Or.inr rfl))

theorem writeValue_ok_of_lt {v : List Nat} (hv : v.length < 2 ^ 29) :
    ∃ ws, writeValue v = .ok ws := by
  cases hw : writeValue v with
  | ok ws => exact ⟨ws, rfl⟩
  | error e =>
    exfalso
    unfold writeValue at hw
    rcases lengthSize_cases hv with h | h | h | h
    · rw [h, if_pos rfl] at hw
      exact Except.noConfusion hw
    · rw [h, if_neg (by decide), if_pos rfl] at hw
      exact Except.noConfusion hw
    · rw [h, if_neg (by decide), if_neg (by decide), if_pos rfl] at hw
      exact Except.noConfusion hw
    · rw [h, if_neg (by decide), if_neg (by decide), if_neg (by decide),
        if_pos rfl] at hw
      exact Except.noConfusion hw

/-! The claims. -/

/-- C1: the round-trip `Unmarshal(Marshal(v)) == v` fails on the code for
`v = int8(100)`: the latest `marshalNumber` computes the zig-zag shift in
`int8` before sign-extending to 64 bits, so `Marshal(int8(100))` yields the
8 bytes `FF FF FF FF FF FF FF C8`, and `unmarshalNumber` decodes them —
with no error, since 8 bytes pass the length check — to `int8(-28) ≠ 100`.
(The earlier variant, `PackInt64(int64(t))`, widens before shifting and
round-trips correctly, so the narrow-shift inlining is a slip.) -/
theorem int8_roundtrip_bug :
    marshalNumberInt8 100 = [255, 255, 255, 255, 255, 255, 255, 200] ∧
    unmarshalNumberInt8 (marshalNumberInt8 100) = (-28, none) ∧
    (-28 : Int) ≠ 100 := by
  decide

/-- C3: `writeTag` emits 1 byte for tag 127, 2 bytes for tags 128 and
16383, 4 bytes for tags 16384 and `2^30 - 1`, and fails with the
tag-too-big error — emitting nothing — for every tag `≥ 2^30`. -/
theorem tag_boundary :
    (∃ l, writeTag (127 : Int) = .ok l ∧ l.length = 1) ∧
    (∃ l, writeTag (128 : Int) = .ok l ∧ l.length = 2) ∧
    (∃ l, writeTag (16383 : Int) = .ok l ∧ l.length = 2) ∧
    (∃ l, writeTag (16384 : Int) = .ok l ∧ l.length = 4) ∧
    (∃ l, writeTag (2 ^ 30 - 1 : Int) = .ok l ∧ l.length = 4) ∧
    (∀ t : Int, 2 ^ 30 ≤ t → writeTag t = .error .tagTooBig) := by
  refine ⟨⟨[127], by decide, rfl⟩, ⟨[128, 128], by decide, rfl⟩,
    ⟨[191, 255], by decide, rfl⟩, ⟨[192, 0, 64, 0], by decide, rfl⟩,
    ⟨[255, 255, 255, 255], by decide, rfl⟩, ?_⟩
  intro t ht
  have hts : tagSize t = -1 := by
    unfold tagSize
    rw [if_neg (by omega), if_neg (by omega), if_neg (by omega)]
  unfold writeTag
  rw [hts, if_neg (by decide), if_neg (by decide), if_neg (by decide)]

/-- C3 witness: the boundary failure at exactly `2^30`. -/
theorem tag_boundary_witness : writeTag ((2 : Int) ^ 30) = .error .tagTooBig :=
  tag_boundary.2.2.2.2.2 (2 ^ 30) (by decide)

/-- C4: the concrete wire vectors of `Encoder.Encode`:
`(0, 00) -> 00 00`, `(0, "") -> 00 80`, `(0, "foo") -> 00 83 66 6F 6F`,
`(129, 00) -> 80 81 00`, `(18000, 7F) -> C0 00 46 50 7F`. -/
theorem encode_vectors :
    Encode 0 [0x00] = .ok [0x00, 0x00] ∧
    Encode 0 [] = .ok [0x00, 0x80] ∧
    Encode 0 [0x66, 0x6F, 0x6F] = .ok [0x00, 0x83, 0x66, 0x6F, 0x6F] ∧
    Encode 129 [0x00] = .ok [0x80, 0x81, 0x00] ∧
    Encode 18000 [0x7F] = .ok [0xC0, 0x00, 0x46, 0x50, 0x7F] := by
  decide

/-- C9: every negative tag is classified by `tagSize` as the 1-byte form
(`tag < 128` holds), so `Encode` silently writes the single truncated byte
`byte(tag)` and reports no error whenever the value itself is encodable. -/
theorem negative_tag_encoded :
    ∀ t : Int, t < 0 →
      tagSize t = 1 ∧ writeTag t = .ok [goByte t] ∧
      ∀ v : List Nat, v.length < 2 ^ 29 →
        ∃ bs, Encode t v = .ok (goByte t :: bs) := by
  intro t ht
  have hts : tagSize t = 1 := by
    unfold tagSize
    rw [if_pos (by omega)]
  have hwt : writeTag t = .ok [goByte t] := by
    unfold writeTag
    rw [hts, if_pos rfl]
  refine ⟨hts, hwt, ?_⟩
  intro v hv
  obtain ⟨ws, hws⟩ := writeValue_ok_of_lt hv
  refine ⟨ws, ?_⟩
  unfold Encode
  rw [hwt, hws]
  rfl

/-- C9 witness: tag -1 is written as the single byte 0xFF. -/
theorem negative_tag_encoded_witness :
    tagSize (-1) = 1 ∧ writeTag (-1) = .ok [goByte (-1)] ∧
    Encode (-1) [0] = .ok [255, 0] := by
  obtain ⟨h1, h2, h3⟩ := negative_tag_encoded (-1) (by decide)
  obtain ⟨bs, hbs⟩ := h3 [0] (by decide)
  exact ⟨h1, h2, by decide⟩

/-- C10: when the payload of a numeric target has length 0 or more than 8,
the latest `unmarshalNumber` reports the invalid-number-encoding error, but
only after `*t` has already been overwritten with the value accumulated
from that payload — the previous contents of the target never survive; on
the concrete 9-byte payload `01 00 00 00 00 00 00 00 01` a target holding
7 is left holding 1 alongside the error. -/
theorem number_target_overwritten_on_error :
    (∀ (data : List Nat) (old : Nat), data.length = 0 ∨ data.length > 8 →
      (unmarshalNumberUint64 data old).2 = some .invalidNumber ∧
      (unmarshalNumberUint64 data old).1 = unpackLoop data) ∧
    unmarshalNumberUint64 [1, 0, 0, 0, 0, 0, 0, 0, 1] 7 =
      (1, some .invalidNumber) := by
  constructor
  · intro data old h
    constructor
    · show (if data.length = 0 ∨ data.length > 8 then some UErr.invalidNumber
        else none) = some .invalidNumber
      rw [if_pos h]
    · rfl
  · decide

/-- C10 witness: the empty payload errors with the target overwritten by
the decoded (zero) accumulation. -/
theorem number_target_overwritten_on_error_witness :
    (unmarshalNumberUint64 [] 5).2 = some .invalidNumber ∧
    (unmarshalNumberUint64 [] 5).1 = unpackLoop [] :=
  number_target_overwritten_on_error.1 [] 5 (Or.inl rfl)

/-- C2 counterexample: the input `[0x05]` ends in the middle of a record —
a complete tag (5) was read, but the input is exhausted before any byte of
the value — yet `Decode` returns the end-of-stream signal `io.EOF`, not a
distinct truncation error. -/
theorem decode_midrecord_eof_counterexample :
    readTag [5] = .ok (5, []) ∧ Decode [5] = .error .eof := by
  decide

/-- C5: a packed sequence payload whose declared leading count differs from
the number of elements in the payload fails with the "invalid packed array"
error, and a packed map payload ending with a trailing key that has no
following value fails with the "missing map value" error; neither reports
success. -/
theorem packed_container_integrity :
    (∀ (c : Nat) (es : List (List Nat)), c < 2 ^ 30 →
      (∀ e ∈ es, e.length < 2 ^ 24) → c ≠ es.length →
      unmarshalSliceBytes (encTag c ++ (es.map encValue).flatten) [] =
        .error .invalidPackedArray) ∧
    (∀ (c : Nat) (ps : List (List Nat × List Nat)) (k : List Nat), c < 2 ^ 30 →
      (∀ p ∈ ps, p.1.length < 2 ^ 24 ∧ p.2.length < 2 ^ 24) →
      k.length < 2 ^ 24 →
      unmarshalMapBytes (encTag c ++
        ((ps.map (fun p => encValue p.1 ++ encValue p.2)).flatten ++ encValue k))
        [] = .error .missingMapValue) := by
  constructor
  · intro c es hc he hne
    unfold unmarshalSliceBytes
    rw [readTag_encTag hc]
    dsimp only
    rw [sliceLoop_encVals es he, if_pos (by omega)]
  · intro c ps k hc hp hk
    unfold unmarshalMapBytes
    rw [readTag_encTag hc]
    dsimp only
    exact mapLoop_encPairs ps hp hk [] c

/-- C5 witness: a packed array declaring 2 elements but holding 1, and a
packed map whose payload is a single dangling key. -/
theorem packed_container_integrity_witness :
    unmarshalSliceBytes (encTag 2 ++ ([[0]].map encValue).flatten) [] =
      .error .invalidPackedArray ∧
    unmarshalMapBytes (encTag 1 ++
      ((([] : List (List Nat × List Nat)).map
        (fun p => encValue p.1 ++ encValue p.2)).flatten ++ encValue [7])) [] =
      .error .missingMapValue := by
  constructor
  · exact packed_container_integrity.1 2 [[0]] (by decide) (by decide) (by decide)
  · exact packed_container_integrity.2 1 [] [7] (by decide) (by decide) (by decide)

/-- C6: decoding a struct payload that contains a record whose tag matches
no field descriptor is identical to decoding the same payload with that
record removed — the record is skipped without error and every known field
receives exactly the value it would have received had the record been
absent (stated for payloads of well-formed records followed by an
arbitrary suffix). -/
theorem unknown_tag_skip {σ : Type} (info : List (FieldD σ))
    (pre : List (Nat × List Nat)) (hpre : ∀ r ∈ pre, RecordOk r)
    (t : Nat) (v : List Nat) (ht : t < 2 ^ 30) (hv : v.length < 2 ^ 24)
    (hf : findField info t = none) (suf : List Nat) (st : σ) :
    unmarshalStructLoop info (encRecords pre ++ (encRecord t v ++ suf)) st =
      unmarshalStructLoop info (encRecords pre ++ suf) st := by
  refine structLoop_ext info pre hpre ?_ st
  intro st'
  rw [structLoop_cons info (Decode_encRecord ht hv suf) st', hf]

/-- C6 witness: a known record with tag 1 followed by an unknown record
with tag 2. -/
theorem unknown_tag_skip_witness :
    unmarshalStructLoop [failingField] (encRecords [(1, [0])] ++
      (encRecord 2 [5] ++ [])) 0 =
      unmarshalStructLoop [failingField] (encRecords [(1, [0])] ++ []) 0 :=
  unknown_tag_skip [failingField] [(1, [0])]
    (by intro r hr; simp at hr; subst hr; exact ⟨by decide, by decide⟩)
    2 [5] (by decide) (by decide) rfl [] 0

/-- C8: in the struct decoder, when a record's tag matches a non-slice
field and the recursive `Unmarshal` of that field's payload fails, the
struct decode answers success (`return nil`) with the state as it stood,
discarding both the sub-field error and all remaining records. -/
theorem scalar_field_error_swallowed {σ : Type} (info : List (FieldD σ))
    {t : Nat} {v : List Nat} (ht : t < 2 ^ 30) (hv : v.length < 2 ^ 24)
    {fi : FieldD σ} (hf : findField info t = some fi) (hs : fi.slice = false)
    {st : σ} {e : UErr} (he : fi.unmarshalInto v st = .error e)
    (rest : List Nat) :
    unmarshalStructLoop info (encRecord t v ++ rest) st = .ok st := by
  rw [structLoop_cons info (Decode_encRecord ht hv rest) st, hf]
  simp only [hs, Bool.not_false, if_true, he]

/-- C8 witness: a failing scalar decode under tag 1, followed by further
bytes that are never examined. -/
theorem scalar_field_error_swallowed_witness :
    unmarshalStructLoop [failingField] (encRecord 1 [5] ++ [9, 9, 9]) 0 =
      .ok 0 :=
  scalar_field_error_swallowed [failingField] (by decide) (by decide)
    (show findField [failingField] 1 = some failingField from rfl)
    (show failingField.slice = false from rfl)
    (show failingField.unmarshalInto [5] 0 = .error .invalidNumber from rfl)
    [9, 9, 9]

/-- C7 counterexample: unmarshaling the empty payload into the struct
`Sptr` (one pointer field `P *uint64` with tag 1) succeeds but leaves
`P` a fresh non-nil pointer to zero rather than at its zero value (nil):
the schema extractor allocates pointer fields before any record is read. -/
theorem empty_unmarshal_pointer_counterexample :
    unmarshalStructSptr [] zeroSptr = .ok ⟨some 0⟩ ∧
    (⟨some 0⟩ : Sptr) ≠ zeroSptr := by
  constructor
  · unfold unmarshalStructSptr
    rw [sptrLoop_eof (by rfl) 0]
  · decide

/-- C7 (amended): marshaling a struct all of whose annotated fields hold
their zero value produces the empty byte sequence; unmarshaling an empty
payload into a struct returns no error and the record loop leaves the
struct state untouched — so every non-pointer field keeps its zero value —
but each pointer field has already been replaced by a freshly allocated
non-nil pointer to a zero pointee, as `Sptr` exhibits. -/
theorem sparse_encoding_amended :
    (∀ fields : List MField, (∀ f ∈ fields, f.isZero = true) →
      marshalStructModel fields = .ok []) ∧
    (∀ (σ : Type) (info : List (FieldD σ)) (st : σ),
      unmarshalStructLoop info [] st = .ok st) ∧
    unmarshalStructSptr [] zeroSptr = .ok ⟨some 0⟩ := by
  refine ⟨?_, ?_, ?_⟩
  · intro fields hz
    unfold marshalStructModel
    have hfil : fields.filter (fun f => !f.isZero) = [] := by
      rw [List.filter_eq_nil]
      intro f hf
      simp [hz f hf]
    rw [hfil]
    rfl
  · intro σ info st
    exact structLoop_eof (by rfl) st
  · unfold unmarshalStructSptr
    rw [sptrLoop_eof (by rfl) 0]

/-- C7 witness: one all-zero field marshals to nothing, and the empty
payload decodes to an unchanged state. -/
theorem sparse_encoding_amended_witness :
    marshalStructModel [⟨1, false, false, true, [0], []⟩] = .ok [] ∧
    unmarshalStructLoop ([] : List (FieldD Nat)) [] 0 = .ok 0 :=
  ⟨sparse_encoding_amended.1 [⟨1, false, false, true, [0], []⟩] (by decide),
   sparse_encoding_amended.2.1 Nat [] 0⟩

theorem bigVal_length : bigVal.length = 2 ^ 24 := by
  have h4 : (encRecord 1 [98, 121]).length = 4 := by decide
  simp only [bigVal, List.length_append, List.length_replicate, h4]
  omega

/-- The long value form for every length up to `2^29`: the index byte
carries the length's top five bits. -/
theorem writeValue_four_big {v : List Nat} (h1 : 2 ^ 13 ≤ v.length)
    (h2 : v.length < 2 ^ 29) :
    writeValue v = .ok ((224 + v.length / 2 ^ 24) :: v.length / 2 ^ 16 % 2 ^ 8 ::
      v.length / 2 ^ 8 % 2 ^ 8 :: v.length % 2 ^ 8 :: v) := by
  unfold writeValue
  rw [lengthSize_four h1 h2, if_neg (by decide), if_neg (by decide),
      if_neg (by decide), if_pos rfl]
  simp only [Nat.shiftRight_eq_div_pow]
  have hff : (255 : Nat) = 2 ^ 8 - 1 := by norm_num
  rw [hff, Nat.and_pow_two_sub_one_eq_mod, Nat.and_pow_two_sub_one_eq_mod,
      Nat.and_pow_two_sub_one_eq_mod, Nat.and_pow_two_sub_one_eq_mod]
  have hm : v.length / 2 ^ 24 % 2 ^ 8 = v.length / 2 ^ 24 := by omega
  rw [hm]
  have h224 : (224 : Nat) = 2 ^ 5 * 7 := by norm_num
  rw [h224, lor_disjoint (by omega)]

theorem encValue_four_big {v : List Nat} (h1 : 2 ^ 13 ≤ v.length)
    (h2 : v.length < 2 ^ 29) :
    encValue v = (224 + v.length / 2 ^ 24) :: v.length / 2 ^ 16 % 2 ^ 8 ::
      v.length / 2 ^ 8 % 2 ^ 8 :: v.length % 2 ^ 8 :: v := by
  unfold encValue
  rw [writeValue_four_big h1 h2]

/-- Reading back the `2^24`-byte value: the decoder's long form ignores the
index byte's low five bits (which here hold the length's only nonzero bit)
and reads the remaining 24 bits — zero — so it returns the EMPTY value and
leaves all `2^24` data bytes in the stream. -/
theorem readValue_encValue_bigVal (rest : List Nat) :
    readValue (encValue bigVal ++ rest) = .ok ([], bigVal ++ rest) := by
  have he : encValue bigVal = 225 :: 0 :: 0 :: 0 :: bigVal := by
    rw [encValue_four_big (by rw [bigVal_length]; norm_num)
        (by rw [bigVal_length]; norm_num), bigVal_length]
    norm_num
  rw [he]
  show readValue (225 :: 0 :: 0 :: 0 :: (bigVal ++ rest)) = .ok ([], bigVal ++ rest)
  unfold readValue readByte readInt24
  dsimp only
  rw [if_neg (by decide), if_neg (by decide), if_neg (by decide)]
  show readFull ((0 <<< 16) ||| (0 <<< 8) ||| 0) (bigVal ++ rest) = _
  have hz : ((0 <<< 16) ||| (0 <<< 8) ||| 0 : Nat) = 0 := by decide
  rw [hz]
  unfold readFull
  rw [if_pos (by omega)]
  rfl

/-- `Decode` composed from its two reads, over abstract streams. -/
theorem Decode_of_reads {l l1 l2 : List Nat} {t : Nat} {v : List Nat}
    (h1 : readTag l = .ok (t, l1)) (h2 : readValue l1 = .ok (v, l2)) :
    Decode l = .ok (t, v, l2) := by
  unfold Decode
  rw [h1]
  dsimp only
  rw [h2]

theorem Decode_encRecord_bigVal :
    Decode (encRecord 99 bigVal) = .ok (99, [], bigVal) := by
  have h1 : readTag (encRecord 99 bigVal) = .ok (99, encValue bigVal) :=
    readTag_encTag (by norm_num) _
  have h2 : readValue (encValue bigVal) = .ok ([], bigVal) := by
    have h := readValue_encValue_bigVal []
    simpa using h
  exact Decode_of_reads h1 h2

theorem Decode_zero_pair (l : List Nat) : Decode (0 :: 0 :: l) = .ok (0, [0], l) := by
  have ht : readTag (0 :: 0 :: l) = .ok (0, 0 :: l) := by
    unfold readTag readByte
    dsimp only
    rw [if_pos (by decide)]
  have hv : readValue (0 :: l) = .ok ([0], l) := by
    unfold readValue readByte
    dsimp only
    rw [if_pos (by decide)]
  unfold Decode
  rw [ht]
  dsimp only
  rw [hv]

/-- Zero padding of even length is consumed by the struct record loop as
skipped records with tag 0 whenever tag 0 matches no field. -/
theorem structLoop_zero_pad {σ : Type} (info : List (FieldD σ))
    (hf : findField info 0 = none) :
    ∀ (m : Nat) (st : σ),
      unmarshalStructLoop info (List.replicate (2 * m) 0) st = .ok st := by
  intro m
  induction m with
  | zero =>
    intro st
    exact structLoop_eof (by rfl) st
  | succ m ih =>
    intro st
    have hrep : List.replicate (2 * (m + 1)) (0 : Nat) =
        0 :: 0 :: List.replicate (2 * m) 0 := by
      have h2 : 2 * (m + 1) = (2 * m) + 1 + 1 := by ring
      rw [h2]
      simp [List.replicate_succ]
    rw [hrep, structLoop_cons info (Decode_zero_pair _) st, hf]
    exact ih st

/-- C6 counterexample: the struct with one string field under tag 1
(`strField`), decoding a payload that carries a known record (1, [104,105])
followed by a record with the unknown tag 99 whose value is `2^24` bytes
long. The decoder's long length form drops the index byte's high length
bits, reads an empty value, and then parses the unknown record's value
bytes as further records, so the embedded record (1, [98,121]) overwrites
the known field: with the unknown-tag record present the field ends as
[98,121], with it absent as [104,105] — not the value it would have had —
so the claim as stated fails at this input. -/
theorem unknown_tag_value_overflow_counterexample :
    findField [strField] 99 = none ∧
    unmarshalStructLoop [strField]
      (encRecord 1 [104, 105] ++ encRecord 99 bigVal) [] = .ok [98, 121] ∧
    unmarshalStructLoop [strField] (encRecord 1 [104, 105]) [] =
      .ok [104, 105] ∧
    ([98, 121] : List Nat) ≠ [104, 105] := by
  refine ⟨rfl, ?_, ?_, by decide⟩
  · rw [structLoop_cons [strField]
        (Decode_encRecord (by norm_num) (by norm_num) (encRecord 99 bigVal)) [],
      show findField [strField] 1 = some strField from rfl]
    show unmarshalStructLoop [strField] (encRecord 99 bigVal) [104, 105] =
      .ok [98, 121]
    rw [structLoop_cons [strField] Decode_encRecord_bigVal [104, 105],
      show findField [strField] 99 = none from rfl]
    show unmarshalStructLoop [strField]
      (encRecord 1 [98, 121] ++ List.replicate (2 ^ 24 - 4) 0) [104, 105] =
      .ok [98, 121]
    rw [structLoop_cons [strField]
        (Decode_encRecord (by norm_num) (by norm_num) _) [104, 105],
      show findField [strField] 1 = some strField from rfl]
    show unmarshalStructLoop [strField] (List.replicate (2 ^ 24 - 4) 0)
      [98, 121] = .ok [98, 121]
    have h24 : (2 ^ 24 - 4 : Nat) = 2 * (2 ^ 23 - 2) := by norm_num
    rw [h24]
    exact structLoop_zero_pad [strField] rfl (2 ^ 23 - 2) [98, 121]
  · rw [← List.append_nil (encRecord 1 [104, 105]),
      structLoop_cons [strField]
        (Decode_encRecord (by norm_num) (by norm_num) []) [],
      show findField [strField] 1 = some strField from rfl]
    show unmarshalStructLoop [strField] [] [104, 105] = .ok [104, 105]
    exact structLoop_eof (by rfl) [104, 105]

theorem readFull_nil {n : Nat} (hn : 0 < n) : readFull n [] = .error .eof := by
  unfold readFull
  simp only [List.length_nil]
  rw [if_neg (by omega)]
  simp

theorem readFull_take_lt {n j : Nat} (v : List Nat) (hj : j < n)
    (hjv : j ≤ v.length) :
    readFull n (v.take j) = .error (if j = 0 then .eof else .unexpectedEOF) := by
  have hlen : (v.take j).length = j := List.length_take_of_le hjv
  unfold readFull
  rw [hlen, if_neg (by omega)]
  split <;> rfl

theorem Decode_of_readTag_error {l : List Nat} {e : RErr}
    (h : readTag l = .error e) : Decode l = .error e := by
  unfold Decode
  rw [h]

theorem Decode_of_readValue_error {l l1 : List Nat} {t : Nat} {e : RErr}
    (h1 : readTag l = .ok (t, l1)) (h2 : readValue l1 = .error e) :
    Decode l = .error e := by
  unfold Decode
  rw [h1]
  dsimp only
  rw [h2]

/-- `readTag` on a proper prefix of an encoded tag: `io.EOF` when only the
first byte of a multi-byte tag is present (the next `ReadByte`, or a
`readInt24` that obtains nothing), `io.ErrUnexpectedEOF` when the 3-byte
extension is present but incomplete. -/
theorem readTag_take_short {t : Nat} (ht : t < 2 ^ 30) {k : Nat}
    (hk : k < (encTag t).length) :
    readTag ((encTag t).take k) =
      .error (if 2 ≤ k then RErr.unexpectedEOF else RErr.eof) := by
  by_cases h1 : t < 128
  · rw [encTag_one h1] at hk ⊢
    simp only [List.length_cons, List.length_nil] at hk
    have hk0 : k = 0 := by omega
    subst hk0
    rw [if_neg (by omega)]
    rfl
  · by_cases h2 : t < 2 ^ 14
    · rw [encTag_two (by omega) h2] at hk ⊢
      simp only [List.length_cons, List.length_nil] at hk
      have hs6 : (128 + t / 2 ^ 8) >>> 6 = 2 := by omega
      rcases (by omega : k = 0 ∨ k = 1) with rfl | rfl
      · rw [if_neg (by omega)]
        rfl
      · rw [if_neg (by omega)]
        show readTag [128 + t / 2 ^ 8] = .error .eof
        unfold readTag readByte
        dsimp only
        rw [hs6, if_neg (by decide), if_pos (by decide)]
    · rw [encTag_four (by omega) ht] at hk ⊢
      simp only [List.length_cons, List.length_nil] at hk
      have hs6 : (192 + t / 2 ^ 24) >>> 6 = 3 := by omega
      rcases (by omega : k = 0 ∨ k = 1 ∨ k = 2 ∨ k = 3) with rfl | rfl | rfl | rfl
      · rw [if_neg (by omega)]
        rfl
      · rw [if_neg (by omega)]
        show readTag [192 + t / 2 ^ 24] = .error .eof
        unfold readTag readByte readInt24
        dsimp only
        rw [hs6, if_neg (by decide), if_neg (by decide)]
      · rw [if_pos (by omega)]
        show readTag [192 + t / 2 ^ 24, t / 2 ^ 16 % 256] = .error .unexpectedEOF
        unfold readTag readByte readInt24
        dsimp only
        rw [hs6, if_neg (by decide), if_neg (by decide)]
      · rw [if_pos (by omega)]
        show readTag [192 + t / 2 ^ 24, t / 2 ^ 16 % 256, t / 2 ^ 8 % 256] =
          .error .unexpectedEOF
        unfold readTag readByte readInt24
        dsimp only
        rw [hs6, if_neg (by decide), if_neg (by decide)]

/-- `readValue` on a proper prefix of an encoded value (value shorter than
`2^24` bytes): `io.ErrUnexpectedEOF` exactly when the cut falls strictly
inside the 3-byte length extension (long form, cut at 2 or 3 bytes) or
strictly inside a nonempty data body (more bytes than the header, fewer
than the whole); every other cut - before the index byte, before a length
byte with none of the read present, or before the data body with zero of
its bytes present - yields `io.EOF`. -/
theorem readValue_take_short {v : List Nat} (hv : v.length < 2 ^ 24) {k : Nat}
    (hk : k < (encValue v).length) :
    readValue ((encValue v).take k) = .error
      (if ((encValue v).headD 0 >>> 5 = 7 ∧ (k = 2 ∨ k = 3)) ∨
          (if (encValue v).headD 0 >>> 5 < 6 then 1
           else if (encValue v).headD 0 >>> 5 = 6 then 2 else 4) < k
       then RErr.unexpectedEOF else RErr.eof) := by
  by_cases h0 : v.length = 1 ∧ v.headD 0 < 128
  · obtain ⟨hl, hh⟩ := h0
    rcases v with _ | ⟨b, tl⟩
    · simp at hl
    · have htl : tl = [] := by
        simp only [List.length_cons] at hl
        exact List.eq_nil_of_length_eq_zero (by omega)
      subst htl
      have hh' : b < 128 := by simpa using hh
      rw [encValue_zero hh'] at hk ⊢
      simp only [List.length_cons, List.length_nil] at hk
      simp only [List.headD_cons]
      have hk0 : k = 0 := by omega
      subst hk0
      rw [if_pos (show b >>> 5 < 6 by omega), if_neg (by omega)]
      rfl
  · by_cases hn1 : v.length < 2 ^ 6
    · have h0' : v.length ≠ 1 ∨ 128 ≤ v.headD 0 := by
        rcases Nat.lt_or_ge (v.headD 0) 128 with h | h
        · exact Or.inl (fun hl => h0 ⟨hl, h⟩)
        · exact Or.inr h
      rw [encValue_one h0' hn1] at hk ⊢
      simp only [List.length_cons] at hk
      simp only [List.headD_cons]
      rw [if_pos (show (128 + v.length) >>> 5 < 6 by omega)]
      have hand : (128 + v.length) &&& 63 = v.length := by
        have h63 : (63 : Nat) = 2 ^ 6 - 1 := by norm_num
        rw [h63, Nat.and_pow_two_sub_one_eq_mod]
        omega
      rcases (by omega : k = 0 ∨ k = 1 ∨ 2 ≤ k) with rfl | rfl | hk2
      · rw [if_neg (by omega)]
        rfl
      · rw [if_neg (by omega)]
        show readValue [128 + v.length] = .error .eof
        unfold readValue readByte
        dsimp only
        rw [if_neg (show ¬ ((128 + v.length) >>> 5 < 4) by omega),
            if_pos (show (128 + v.length) >>> 5 < 6 by omega), hand,
            readFull_nil (by omega)]
      · rw [if_pos (by omega)]
        obtain ⟨j, rfl⟩ : ∃ j, k = j + 2 := ⟨k - 2, by omega⟩
        show readValue ((128 + v.length) :: v.take (j + 1)) =
          .error .unexpectedEOF
        unfold readValue readByte
        dsimp only
        rw [if_neg (show ¬ ((128 + v.length) >>> 5 < 4) by omega),
            if_pos (show (128 + v.length) >>> 5 < 6 by omega), hand,
            readFull_take_lt v (by omega) (by omega), if_neg (by omega)]
    · by_cases hn2 : v.length < 2 ^ 13
      · rw [encValue_two (by omega) hn2] at hk ⊢
        simp only [List.length_cons] at hk
        simp only [List.headD_cons]
        have hs5 : (192 + v.length / 2 ^ 8) >>> 5 = 6 := by omega
        rw [if_neg (show ¬ ((192 + v.length / 2 ^ 8) >>> 5 < 6) by omega),
            if_pos hs5]
        have hand : (192 + v.length / 2 ^ 8) &&& 31 = v.length / 2 ^ 8 := by
          have h31 : (31 : Nat) = 2 ^ 5 - 1 := by norm_num
          rw [h31, Nat.and_pow_two_sub_one_eq_mod]
          omega
        have hmul : v.length / 2 ^ 8 * 2 ^ 8 = 2 ^ 8 * (v.length / 2 ^ 8) := by
          ring
        have hfin : 2 ^ 8 * (v.length / 2 ^ 8) + v.length % 2 ^ 8 =
            v.length := by omega
        rcases (by omega : k = 0 ∨ k = 1 ∨ k = 2 ∨ 3 ≤ k)
          with rfl | rfl | rfl | hk3
        · rw [if_neg (by omega)]
          rfl
        · rw [if_neg (by omega)]
          show readValue [192 + v.length / 2 ^ 8] = .error .eof
          unfold readValue readByte
          dsimp only
          rw [hs5, if_neg (by decide), if_neg (by decide), if_pos (by decide)]
        · rw [if_neg (show ¬ (((192 + v.length / 2 ^ 8) >>> 5 = 7 ∧
            ((2 : Nat) = 2 ∨ (2 : Nat) = 3)) ∨ 2 < 2) by omega)]
          show readValue [192 + v.length / 2 ^ 8, v.length % 2 ^ 8] =
            .error .eof
          unfold readValue readByte
          dsimp only
          rw [hs5, if_neg (by decide), if_neg (by decide), if_pos (by decide),
              hand, Nat.shiftLeft_eq, hmul, lor_disjoint (by omega), hfin,
              readFull_nil (by omega)]
        · rw [if_pos (by omega)]
          obtain ⟨j, rfl⟩ : ∃ j, k = j + 3 := ⟨k - 3, by omega⟩
          show readValue ((192 + v.length / 2 ^ 8) :: v.length % 2 ^ 8 ::
            v.take (j + 1)) = .error .unexpectedEOF
          unfold readValue readByte
          dsimp only
          rw [hs5, if_neg (by decide), if_neg (by decide), if_pos (by decide),
              hand, Nat.shiftLeft_eq, hmul, lor_disjoint (by omega), hfin,
              readFull_take_lt v (by omega) (by omega), if_neg (by omega)]
      · rw [encValue_four (by omega) hv] at hk ⊢
        simp only [List.length_cons] at hk
        simp only [List.headD_cons]
        rw [if_neg (show ¬ ((224 : Nat) >>> 5 < 6) by decide),
            if_neg (show ¬ ((224 : Nat) >>> 5 = 6) by decide)]
        have e1 : v.length / 2 ^ 16 % 2 ^ 8 * 2 ^ 16 =
            2 ^ 16 * (v.length / 2 ^ 16 % 2 ^ 8) := by ring
        have e2 : v.length / 2 ^ 8 % 2 ^ 8 * 2 ^ 8 =
            2 ^ 8 * (v.length / 2 ^ 8 % 2 ^ 8) := by ring
        have e3 : 2 ^ 16 * (v.length / 2 ^ 16 % 2 ^ 8) +
            2 ^ 8 * (v.length / 2 ^ 8 % 2 ^ 8) =
            2 ^ 8 * (2 ^ 8 * (v.length / 2 ^ 16 % 2 ^ 8) +
              v.length / 2 ^ 8 % 2 ^ 8) := by ring
        have hfin : 2 ^ 8 * (2 ^ 8 * (v.length / 2 ^ 16 % 2 ^ 8) +
            v.length / 2 ^ 8 % 2 ^ 8) + v.length % 2 ^ 8 = v.length := by
          omega
        rcases (by omega : k = 0 ∨ k = 1 ∨ k = 2 ∨ k = 3 ∨ k = 4 ∨ 5 ≤ k)
          with rfl | rfl | rfl | rfl | rfl | hk5
        · rw [if_neg (by omega)]
          rfl
        · rw [if_neg (by omega)]
          show readValue [224] = .error .eof
          unfold readValue readByte readInt24
          dsimp only
          rw [if_neg (by decide), if_neg (by decide), if_neg (by decide)]
        · rw [if_pos (by omega)]
          show readValue [224, v.length / 2 ^ 16 % 2 ^ 8] =
            .error .unexpectedEOF
          unfold readValue readByte readInt24
          dsimp only
          rw [if_neg (by decide), if_neg (by decide), if_neg (by decide)]
        · rw [if_pos (by omega)]
          show readValue [224, v.length / 2 ^ 16 % 2 ^ 8,
            v.length / 2 ^ 8 % 2 ^ 8] = .error .unexpectedEOF
          unfold readValue readByte readInt24
          dsimp only
          rw [if_neg (by decide), if_neg (by decide), if_neg (by decide)]
        · rw [if_neg (by omega)]
          show readValue [224, v.length / 2 ^ 16 % 2 ^ 8,
            v.length / 2 ^ 8 % 2 ^ 8, v.length % 2 ^ 8] = .error .eof
          unfold readValue readByte readInt24
          dsimp only
          rw [if_neg (by decide), if_neg (by decide), if_neg (by decide)]
          simp only [Nat.shiftLeft_eq]
          rw [e1, e2, lor_disjoint (by omega), e3, lor_disjoint (by omega),
              hfin, readFull_nil (by omega)]
        · rw [if_pos (by omega)]
          obtain ⟨j, rfl⟩ : ∃ j, k = j + 5 := ⟨k - 5, by omega⟩
          show readValue (224 :: v.length / 2 ^ 16 % 2 ^ 8 ::
            v.length / 2 ^ 8 % 2 ^ 8 :: v.length % 2 ^ 8 :: v.take (j + 1)) =
            .error .unexpectedEOF
          unfold readValue readByte readInt24
          dsimp only
          rw [if_neg (by decide), if_neg (by decide), if_neg (by decide)]
          simp only [Nat.shiftLeft_eq]
          rw [e1, e2, lor_disjoint (by omega), e3, lor_disjoint (by omega),
              hfin, readFull_take_lt v (by omega) (by omega), if_neg (by omega)]

set_option maxRecDepth 4000 in
/-- C2 (amended): Decode on any input that ends partway through a record
(any proper prefix of the encoding of a record with tag below `2^30` and
value shorter than `2^24` bytes) always reports an error, and the error is
`io.ErrUnexpectedEOF` exactly when the cut falls strictly inside one of the
multi-byte `io.ReadFull` reads with at least one of its bytes present: the
3-byte tag extension (cut at byte 2 or 3 of a 4-byte tag), the 3-byte
length extension (cut 2 or 3 bytes past a long-form index byte), or a
nonempty partial data body (more bytes than the value header, fewer than
the whole record). At every other truncation point - after the first byte
of a 2-byte tag, after a complete tag, before a length byte with none of
that read present, or before a data body of which zero bytes are present -
Decode returns `io.EOF`, the same signal as a clean end of stream, so
`io.EOF` is not confined to record boundaries. -/
theorem decode_truncation_amended :
    ∀ (t : Nat) (v : List Nat), t < 2 ^ 30 → v.length < 2 ^ 24 →
    ∀ k : Nat, k < (encRecord t v).length →
    Decode ((encRecord t v).take k) = .error
      (if ((encTag t).length = 4 ∧ (k = 2 ∨ k = 3)) ∨
          ((encValue v).headD 0 >>> 5 = 7 ∧
            (k = (encTag t).length + 2 ∨ k = (encTag t).length + 3)) ∨
          (encTag t).length +
            (if (encValue v).headD 0 >>> 5 < 6 then 1
             else if (encValue v).headD 0 >>> 5 = 6 then 2 else 4) < k
       then RErr.unexpectedEOF else RErr.eof) := by
  intro t v ht hv k hk
  have hT : (encTag t).length = 1 ∨ (encTag t).length = 2 ∨
      (encTag t).length = 4 := by
    by_cases h1 : t < 128
    · exact Or.inl (by rw [encTag_one h1]; rfl)
    · by_cases h2 : t < 2 ^ 14
      · exact Or.inr (Or.inl (by rw [encTag_two (by omega) h2]; rfl))
      · exact Or.inr (Or.inr (by rw [encTag_four (by omega) ht]; rfl))
  have hlen : (encRecord t v).length =
      (encTag t).length + (encValue v).length := by
    unfold encRecord
    exact List.length_append _ _
  by_cases hkT : k < (encTag t).length
  · have htake : (encRecord t v).take k = (encTag t).take k := by
      unfold encRecord
      exact List.take_append_of_le_length (by omega)
    rw [htake, Decode_of_readTag_error (readTag_take_short ht hkT)]
    congr 1
    refine if_congr ?_ rfl rfl
    constructor
    · intro h2k
      rcases hT with h | h | h
      · omega
      · omega
      · exact Or.inl ⟨h, by omega⟩
    · intro h
      rcases h with ⟨-, h⟩ | ⟨-, h⟩ | h
      · omega
      · omega
      · split_ifs at h <;> omega
  · push_neg at hkT
    have htake : (encRecord t v).take k =
        encTag t ++ (encValue v).take (k - (encTag t).length) := by
      unfold encRecord
      rw [List.take_append_eq_append_take, List.take_of_length_le hkT]
    have hkW : k - (encTag t).length < (encValue v).length := by omega
    rw [htake, Decode_of_readValue_error (readTag_encTag ht _)
      (readValue_take_short hv hkW)]
    congr 1
    refine if_congr ?_ rfl rfl
    constructor
    · intro h
      rcases h with ⟨h7, hj⟩ | hj
      · exact Or.inr (Or.inl ⟨h7, by omega⟩)
      · refine Or.inr (Or.inr ?_)
        split_ifs at hj ⊢ <;> omega
    · intro h
      rcases h with ⟨h4, hj⟩ | ⟨h7, hj⟩ | hj
      · rcases hT with hT | hT | hT <;> omega
      · exact Or.inl ⟨h7, by omega⟩
      · refine Or.inr ?_
        split_ifs at hj ⊢ <;> omega

set_option maxRecDepth 4000 in
/-- Witness for C2: for the record with tag `0` and value `[1, 2]`
(wire bytes `00 82 01 02`), cutting after 3 bytes lands inside the data
body and gives `io.ErrUnexpectedEOF`, while cutting after 2 bytes (a
complete tag and value header, zero data bytes) gives `io.EOF`. -/
theorem decode_truncation_amended_witness :
    Decode ((encRecord 0 [1, 2]).take 3) = .error RErr.unexpectedEOF ∧
    Decode ((encRecord 0 [1, 2]).take 2) = .error RErr.eof := by
  constructor
  · rw [decode_truncation_amended 0 [1, 2] (by decide) (by decide) 3
      (by decide)]
    decide
  · rw [decode_truncation_amended 0 [1, 2] (by decide) (by decide) 2
      (by decide)]
    decide

end Binpack
